import Mathlib

/-!
Verification of the dataset-encoding core of a Diplomacy training-data
pipeline (`fairdiplomacy/data/dataset.py`).

The Python functions are shallowly embedded as Lean functions.  Global
tables that the Python module imports from elsewhere in the repository
(`ORDER_VOCABULARY`, `LOCS`) are passed as explicit parameters: the Python
functions are closures over those read-only globals.  Machine tensors
become lists of `Int`; the `EOS_IDX` padding sentinel is `-1`, distinct
from every real vocabulary id (real ids are list indices, hence
non-negative).  Python exceptions that escape a function (KeyError on a
dict, an `assert`, a torch shape error) are modelled by an `Option`
result, `none` meaning the call raises.
-/

/-- Maximum number of sequential order steps per (turn, player); the
`[1, 17, 469]` candidate tensor's second dimension (`MAX_SEQ_LEN`). -/
def MAX_SEQ_LEN : Nat := 17

/-- Maximum number of candidate ids per step; the `[1, 17, 469]` candidate
tensor's third dimension (`MAX_VALID_LEN`). -/
def MAX_VALID_LEN : Nat := 469

/-- Modelled from the spec: the padding sentinel (`EOS_IDX`, imported from
`order_vocabulary`, not under `src/`) is "a reserved end sentinel
distinguishable from any real id"; real ids are dense non-negative
vocabulary indices, so `-1` never collides. -/
def EOS_IDX : Int := -1

/-- Helper for `pySplit`: walk the characters, accumulating the current
field in reverse; whitespace closes a field, empty fields are dropped. -/
def pySplitAux : List Char → List Char → List String
  | [], cur => if cur.isEmpty then [] else [String.mk cur.reverse]
  | c :: rest, cur =>
    if c.isWhitespace then
      if cur.isEmpty then pySplitAux rest []
      else String.mk cur.reverse :: pySplitAux rest []
    else pySplitAux rest (c :: cur)

/-- Python `str.split()` with no separator: split on whitespace runs,
discarding empty fields. -/
def pySplit (s : String) : List String :=
  pySplitAux s.data []

/-- Helper for `pyReplace`: replace non-overlapping occurrences of `pat`
left to right.  The fuel argument starts at the list length; every step
consumes at least one character, so it never runs out. -/
def replaceAux (pat rep : List Char) : Nat → List Char → List Char
  | _, [] => []
  | 0, l => l
  | fuel + 1, c :: rest =>
    if pat.isPrefixOf (c :: rest) && !pat.isEmpty then
      rep ++ replaceAux pat rep fuel ((c :: rest).drop pat.length)
    else c :: replaceAux pat rep fuel rest

/-- Python `str.replace(pat, rep)`: replace every non-overlapping
occurrence of `pat`, scanning left to right. -/
def pyReplace (s pat rep : String) : String :=
  String.mk (replaceAux pat.data rep.data s.data.length s.data)

/-- Lexicographic strict comparison of character lists by code point,
Python's string ordering. -/
def charListLtb : List Char → List Char → Bool
  | _, [] => false
  | [], _ :: _ => true
  | c :: cs, d :: ds =>
    if c.toNat < d.toNat then true
    else if d.toNat < c.toNat then false
    else charListLtb cs ds

/-- Python string `<=`, lexicographic by code point. -/
def pyStrLe (a b : String) : Bool :=
  !(charListLtb b.data a.data)

/-- Python `sorted` on strings: stable ascending sort.  Insertion sort is
stable, matching CPython's stable sort. -/
def pySorted (l : List String) : List String :=
  List.insertionSort (fun a b => pyStrLe a b = true) l

/-- `torch.sort` on a vector of ids: ascending order. -/
def sortedInts (l : List Int) : List Int :=
  List.insertionSort (fun a b => a ≤ b) l

/-- `ORDER_VOCABULARY_TO_IDX`: the dict `{order: idx}` built by enumerating
the vocabulary list; lookup of a missing key raises KeyError, modelled as
`none`. -/
def ORDER_VOCABULARY_TO_IDX (vocab : List String) (s : String) : Option Nat :=
  vocab.findIdx? (· == s)

/-- `ORDER_VOCABULARY[idx]`: the vocabulary list indexed by id.  Ids always
come from `ORDER_VOCABULARY_TO_IDX`, so the default is unreachable. -/
def ORDER_VOCABULARY_get (vocab : List String) (idx : Nat) : String :=
  vocab.getD idx ""

/-- The coastal-suffix stripping loop of `smarter_order_index`:
`order.replace(suffix, "")` for each of `/NC`, `/EC`, `/SC`, `/WC`. -/
def strip_coastal (order : String) : String :=
  pyReplace (pyReplace (pyReplace (pyReplace order "/NC" "") "/EC" "") "/SC" "") "/WC" ""

/-- `smarter_order_index`: direct vocabulary lookup; on KeyError retry once
with the coastal-variant suffixes stripped; a second KeyError propagates to
the caller (`none`). -/
def smarter_order_index (vocab : List String) (order : String) : Option Nat :=
  match ORDER_VOCABULARY_TO_IDX vocab order with
  | some i => some i
  | none => ORDER_VOCABULARY_TO_IDX vocab (strip_coastal order)

/-- C6: `smarter_order_index` returns the direct vocabulary id when the
string is present; on a miss it returns the lookup of the string with the
coastal-variant suffixes `/NC`, `/EC`, `/SC`, `/WC` stripped; and it fails
(KeyError propagated to the caller) exactly when both lookups miss. -/
theorem smarter_order_index_spec (vocab : List String) (order : String) :
    (∀ i, ORDER_VOCABULARY_TO_IDX vocab order = some i →
      smarter_order_index vocab order = some i) ∧
    (ORDER_VOCABULARY_TO_IDX vocab order = none →
      smarter_order_index vocab order =
        ORDER_VOCABULARY_TO_IDX vocab (strip_coastal order)) ∧
    (smarter_order_index vocab order = none ↔
      ORDER_VOCABULARY_TO_IDX vocab order = none ∧
      ORDER_VOCABULARY_TO_IDX vocab (strip_coastal order) = none) := by
  unfold smarter_order_index
  cases h : ORDER_VOCABULARY_TO_IDX vocab order with
  | some i => exact ⟨fun j hj => by simp_all, fun h2 => by simp_all, by simp⟩
  | none =>
    refine ⟨fun j hj => by simp_all, fun _ => rfl, ?_⟩
    constructor
    · intro h2; exact ⟨rfl, h2⟩
    · intro h2; exact h2.2

/-- Concrete instance of C6: `"F STP/NC - BAR"` is absent from the
one-entry vocabulary `["F STP - BAR"]`, so the lookup falls back to the
suffix-stripped string. -/
theorem smarter_order_index_spec_witness :
    ORDER_VOCABULARY_TO_IDX ["F STP - BAR"] "F STP/NC - BAR" = none ∧
    smarter_order_index ["F STP - BAR"] "F STP/NC - BAR" =
      ORDER_VOCABULARY_TO_IDX ["F STP - BAR"] (strip_coastal "F STP/NC - BAR") :=
  ⟨by decide, (smarter_order_index_spec ["F STP - BAR"] "F STP/NC - BAR").2.1 (by decide)⟩

/-- itertools.combinations over a list, in Python's enumeration order:
every length-`n` subsequence, elements keeping their relative order. -/
def pyCombinations {α : Type} : Nat → List α → List (List α)
  | 0, _ => [[]]
  | _ + 1, [] => []
  | n + 1, x :: xs => (pyCombinations n xs).map (x :: ·) ++ pyCombinations (n + 1) xs

/-- itertools.product over a list of lists, in Python's enumeration order
(last factor varies fastest). -/
def pyProduct {α : Type} : List (List α) → List (List α)
  | [] => [[]]
  | l :: ls => l.flatMap (fun x => (pyProduct ls).map (x :: ·))

/-- Apply an `Option`-valued function to every element; a `none` anywhere
(a raised KeyError in a Python comprehension or loop) aborts the whole
call. -/
def tryMap {α β : Type} (f : α → Option β) : List α → Option (List β)
  | [] => some []
  | a :: l =>
    match f a with
    | none => none
    | some b =>
      match tryMap f l with
      | none => none
      | some bs => some (b :: bs)

/-- The `[MAX_SEQ_LEN, MAX_VALID_LEN]` candidate tensor freshly filled with
the padding sentinel (the leading batch dimension of 1 is dropped). -/
def empty_order_idxs : List (List Int) :=
  List.replicate MAX_SEQ_LEN (List.replicate MAX_VALID_LEN EOS_IDX)

/-- The `[len(LOCS)]` step-assignment tensor filled with `-1`. -/
def empty_loc_idxs (LOCS : List String) : List Int :=
  List.replicate LOCS.length (-1)

/-- In-place prefix assignment `row[:len(vals)] = vals`: overwrite the
first `vals.length` cells, keep the rest. -/
def writeRow (row : List Int) (vals : List Int) : List Int :=
  vals ++ row.drop vals.length

/-- Broadcast assignment `t[:n, :len(vals)] = vals`: prefix-assign `vals`
into every row of index `< n`. -/
def writeRows (t : List (List Int)) (n : Nat) (vals : List Int) : List (List Int) :=
  t.mapIdx (fun i row => if i < n then writeRow row vals else row)

/-- `loc_idxs[positions] = v`: set every listed cell. -/
def setLocs (locIdxs : List Int) (positions : List Nat) (v : Int) : List Int :=
  positions.foldl (fun acc p => acc.set p v) locIdxs

/-- The dict comprehension stripping the no-op `"WAIVE"` pseudo-order from
every location's candidate list. -/
def strip_waive (apo : List (String × List String)) : List (String × List String) :=
  apo.map (fun kv => (kv.1, kv.2.filter (fun x => !(x == "WAIVE"))))

/-- The sort key `LOCS.index(all_possible_orders[loc][0].split()[1])`: the
canonical position of the coastal variant actually implied by the
location's first candidate order.  A missing dict key, an empty candidate
list, a too-short candidate string, or an unknown location raises in
Python, modelled as `none`. -/
def loc_sort_key (LOCS : List String) (apo : List (String × List String))
    (loc : String) : Option Nat :=
  match apo.lookup loc with
  | none => none
  | some [] => none
  | some (o :: _) =>
    match (pySplit o)[1]? with
    | none => none
    | some fld => LOCS.findIdx? (· == fld)

/-- The player's orderable locations sorted by canonical location order
(`sorted` with the coastal-variant key; Python's sort is stable, as is
insertion sort). -/
def orderable_locs_of (LOCS : List String) (apo : List (String × List String))
    (player_locs : List String) : List String :=
  List.insertionSort
    (fun a b => (loc_sort_key LOCS apo a).getD 0 ≤ (loc_sort_key LOCS apo b).getD 0)
    player_locs

/-- The build-phase comprehension: every size-`n` combination of the
orderable locations' candidate lists, crossed with one candidate per chosen
list, each serialized as a single `;`-joined sorted string. -/
def build_order_strings (cand_lists : List (List String)) (n : Nat) : List String :=
  (pyCombinations n cand_lists).flatMap
    (fun c => (pyProduct c).map (fun x => String.intercalate ";" (pySorted x)))

/-- `filter_orders_in_vocab`: the subset of orders found in the vocabulary
(after coastal fallback), with their ids; unresolvable candidates are
silently dropped. -/
def filter_orders_in_vocab (vocab : List String) : List String → List String × List Nat
  | [] => ([], [])
  | o :: rest =>
    let p := filter_orders_in_vocab vocab rest
    match smarter_order_index vocab o with
    | some idx => (o :: p.1, idx :: p.2)
    | none => (p.1, p.2)

/-- The move-phase loop of `get_valid_orders_impl`: each orderable location
becomes its own sequential step holding its vocabulary-filtered candidates
(sorted), and the step-assignment array records its position.  Stepping
past row `MAX_SEQ_LEN - 1` or writing more than `MAX_VALID_LEN` candidates
raises in Python, modelled as `none`. -/
def moveLoop (vocab LOCS : List String) (apo : List (String × List String)) :
    List String → Nat → List (List Int) → List Int → Option (List (List Int) × List Int)
  | [], _, t, l => some (t, l)
  | loc :: rest, i, t, l =>
    if i < MAX_SEQ_LEN then
      let idxs := (filter_orders_in_vocab vocab ((apo.lookup loc).getD [])).2
      if idxs.length ≤ MAX_VALID_LEN then
        match LOCS.findIdx? (· == loc) with
        | none => none
        | some p =>
          moveLoop vocab LOCS apo rest (i + 1)
            (t.set i (writeRow (t.getD i []) (sortedInts (idxs.map Int.ofNat))))
            (l.set p (Int.ofNat i))
      else none
    else none

/-- `get_valid_orders_impl`: the per-(turn, player) candidate-set
generator.  Returns the padded `[MAX_SEQ_LEN, MAX_VALID_LEN]` candidate
tensor, the per-location step assignment over `LOCS`, and the true step
count.  `none` models an uncaught Python exception (KeyError on a dict,
ValueError from `LOCS.index`, a torch indexing or shape error). -/
def get_valid_orders_impl (vocab LOCS : List String) (power : String)
    (all_possible_orders : List (String × List String))
    (all_orderable_locations : List (String × List String))
    (builds : List (String × Int)) :
    Option (List (List Int) × List Int × Int) :=
  match all_orderable_locations.lookup power with
  | none => some (empty_order_idxs, empty_loc_idxs LOCS, 0)
  | some player_locs =>
    let apo := strip_waive all_possible_orders
    match tryMap (loc_sort_key LOCS apo) player_locs with
    | none => none
    | some _ =>
      let orderable_locs := orderable_locs_of LOCS apo player_locs
      match builds.lookup power with
      | none => none
      | some n_builds =>
        if 0 < n_builds then
          let orders := build_order_strings
            (orderable_locs.map (fun loc => (apo.lookup loc).getD [])) n_builds.toNat
          match tryMap (ORDER_VOCABULARY_TO_IDX vocab) orders with
          | none => none
          | some order_idxs =>
            if order_idxs.length ≤ MAX_VALID_LEN then
              match tryMap (fun l => LOCS.findIdx? (· == l)) orderable_locs with
              | none => none
              | some positions =>
                some (empty_order_idxs.set 0
                        (writeRow (empty_order_idxs.getD 0 [])
                          (sortedInts (order_idxs.map Int.ofNat))),
                      setLocs (empty_loc_idxs LOCS) positions (-2), n_builds)
            else none
        else if n_builds < 0 then
          let power_possible_orders :=
            orderable_locs.flatMap (fun loc => (apo.lookup loc).getD [])
          let order_idxs := (filter_orders_in_vocab vocab power_possible_orders).2
          if order_idxs.length ≤ MAX_VALID_LEN then
            match tryMap (fun l => LOCS.findIdx? (· == l)) orderable_locs with
            | none => none
            | some positions =>
              some (writeRows empty_order_idxs (-n_builds).toNat
                      (sortedInts (order_idxs.map Int.ofNat)),
                    setLocs (empty_loc_idxs LOCS) positions (-2), -n_builds)
          else none
        else
          match moveLoop vocab LOCS apo orderable_locs 0
              empty_order_idxs (empty_loc_idxs LOCS) with
          | none => none
          | some tl => some (tl.1, tl.2, Int.ofNat orderable_locs.length)

/-- C10: when the player is absent from the orderable-locations map,
`get_valid_orders_impl` returns the candidate tensor filled entirely with
the padding sentinel, a step-assignment array of all `-1`, and step count
`0`. -/
theorem get_valid_orders_impl_missing_power (vocab LOCS : List String) (power : String)
    (apo aol : List (String × List String)) (builds : List (String × Int))
    (h : aol.lookup power = none) :
    get_valid_orders_impl vocab LOCS power apo aol builds =
      some (List.replicate MAX_SEQ_LEN (List.replicate MAX_VALID_LEN EOS_IDX),
            List.replicate LOCS.length (-1), 0) := by
  unfold get_valid_orders_impl
  rw [h]
  rfl

/-- Concrete instance of C10: the lookup of `"ITALY"` misses, so the
generator returns the fully padded tensor, all `-1` assignments, and step
count `0`. -/
theorem get_valid_orders_impl_missing_power_witness :
    (([("AUSTRIA", ["VIE"])] : List (String × List String)).lookup "ITALY" = none) ∧
    get_valid_orders_impl [] ["VIE"] "ITALY" [] [("AUSTRIA", ["VIE"])] [] =
      some (List.replicate MAX_SEQ_LEN (List.replicate MAX_VALID_LEN EOS_IDX),
            List.replicate 1 (-1), 0) :=
  ⟨by decide,
    get_valid_orders_impl_missing_power [] ["VIE"] "ITALY" [] [("AUSTRIA", ["VIE"])] []
      (by decide)⟩

theorem length_pyCombinations {α : Type} (n : Nat) (l : List α) :
    (pyCombinations n l).length = l.length.choose n := by
  induction l generalizing n with
  | nil => cases n <;> simp [pyCombinations]
  | cons x xs ih =>
    cases n with
    | zero => simp [pyCombinations]
    | succ m =>
      simp only [pyCombinations, List.length_append, List.length_map, ih,
        List.length_cons, Nat.choose_succ_succ]

theorem mem_pyCombinations {α : Type} {n : Nat} {l c : List α}
    (h : c ∈ pyCombinations n l) : c.length = n ∧ c.Sublist l := by
  induction l generalizing n c with
  | nil =>
    cases n with
    | zero =>
      simp only [pyCombinations, List.mem_singleton] at h
      subst h; simp
    | succ m => simp [pyCombinations] at h
  | cons x xs ih =>
    cases n with
    | zero =>
      simp only [pyCombinations, List.mem_singleton] at h
      subst h; simp
    | succ m =>
      simp only [pyCombinations, List.mem_append, List.mem_map] at h
      rcases h with ⟨c', hc', rfl⟩ | h
      · obtain ⟨hlen, hsub⟩ := ih hc'
        exact ⟨by simp [hlen], hsub.cons₂ x⟩
      · obtain ⟨hlen, hsub⟩ := ih h
        exact ⟨hlen, hsub.cons x⟩

theorem sum_map_eq_length_mul {α : Type} (l : List α) (f : α → Nat) (c : Nat)
    (h : ∀ x ∈ l, f x = c) : (l.map f).sum = l.length * c := by
  induction l with
  | nil => simp
  | cons x xs ih =>
    have hx : f x = c := h x (by simp)
    have := ih (fun y hy => h y (by simp [hy]))
    simp only [List.map_cons, List.sum_cons, this, hx, List.length_cons]
    ring

theorem length_pyProduct_const {α : Type} {k : Nat} {ls : List (List α)}
    (h : ∀ l ∈ ls, l.length = k) : (pyProduct ls).length = k ^ ls.length := by
  induction ls with
  | nil => simp [pyProduct]
  | cons l ls ih =>
    have hl : l.length = k := h l (by simp)
    have ihl := ih (fun x hx => h x (by simp [hx]))
    simp only [pyProduct, List.length_flatMap]
    rw [sum_map_eq_length_mul _ _ (pyProduct ls).length (by
      intro x hx
      simp [List.length_map])]
    rw [hl, ihl, List.length_cons, pow_succ]
    ring

theorem length_build_order_strings {k : Nat} {cand_lists : List (List String)} (n : Nat)
    (h : ∀ l ∈ cand_lists, l.length = k) :
    (build_order_strings cand_lists n).length = cand_lists.length.choose n * k ^ n := by
  unfold build_order_strings
  rw [List.length_flatMap]
  rw [sum_map_eq_length_mul _ _ (k ^ n) ?_]
  · rw [length_pyCombinations]
  · intro c hc
    obtain ⟨hlen, hsub⟩ := mem_pyCombinations hc
    simp only [Function.comp_apply, List.length_map]
    rw [length_pyProduct_const (fun l hl => h l (hsub.subset hl)), hlen]

theorem tryMap_eq_some_of_isSome {α β : Type} {f : α → Option β} {l : List α}
    (h : ∀ a ∈ l, (f a).isSome) :
    ∃ bs, tryMap f l = some bs ∧ List.Forall₂ (fun a b => f a = some b) l bs := by
  induction l with
  | nil => exact ⟨[], rfl, List.Forall₂.nil⟩
  | cons a l ih =>
    obtain ⟨b, hb⟩ := Option.isSome_iff_exists.mp (h a (by simp))
    obtain ⟨bs, hbs, hf⟩ := ih (fun x hx => h x (by simp [hx]))
    exact ⟨b :: bs, by simp [tryMap, hb, hbs], List.Forall₂.cons hb hf⟩

/-- C1: on a build-owed turn (`n > 0` builds) with `m` orderable locations,
each holding `k` candidate orders after waive removal,
`get_valid_orders_impl` produces exactly `C(m, n) * k ^ n` combination ids
— one per size-`n` location subset crossed with one candidate order per
chosen location, each resolved from its `;`-joined sorted serialization —
and places them, sorted, in the first step of the candidate tensor. -/
theorem get_valid_orders_impl_build_combinatorics
    (vocab LOCS : List String) (power : String)
    (apo aol : List (String × List String)) (builds : List (String × Int))
    (player_locs : List String) (n : Int) (k : Nat)
    (h_locs : aol.lookup power = some player_locs)
    (h_builds : builds.lookup power = some n)
    (hn : 0 < n)
    (hkey : ∀ loc ∈ player_locs, (loc_sort_key LOCS (strip_waive apo) loc).isSome)
    (hk : ∀ loc ∈ player_locs, (((strip_waive apo).lookup loc).getD []).length = k)
    (hvocab : ∀ s ∈ build_order_strings
        ((orderable_locs_of LOCS (strip_waive apo) player_locs).map
          (fun loc => ((strip_waive apo).lookup loc).getD [])) n.toNat,
        (ORDER_VOCABULARY_TO_IDX vocab s).isSome)
    (hbound : Nat.choose player_locs.length n.toNat * k ^ n.toNat ≤ MAX_VALID_LEN)
    (hpos : ∀ loc ∈ player_locs, (LOCS.findIdx? (· == loc)).isSome) :
    ∃ ids : List Nat, ∃ locIdxsOut : List Int,
      List.Forall₂ (fun s i => ORDER_VOCABULARY_TO_IDX vocab s = some i)
        (build_order_strings
          ((orderable_locs_of LOCS (strip_waive apo) player_locs).map
            (fun loc => ((strip_waive apo).lookup loc).getD [])) n.toNat) ids ∧
      ids.length = Nat.choose player_locs.length n.toNat * k ^ n.toNat ∧
      get_valid_orders_impl vocab LOCS power apo aol builds =
        some (empty_order_idxs.set 0
                (writeRow (List.replicate MAX_VALID_LEN EOS_IDX)
                  (sortedInts (ids.map Int.ofNat))),
              locIdxsOut, n) := by
  have hperm : (orderable_locs_of LOCS (strip_waive apo) player_locs).Perm player_locs :=
    List.perm_insertionSort _ _
  have hkol : ∀ l ∈ (orderable_locs_of LOCS (strip_waive apo) player_locs).map
      (fun loc => ((strip_waive apo).lookup loc).getD []), l.length = k := by
    intro l hl
    obtain ⟨loc, hloc, rfl⟩ := List.mem_map.mp hl
    exact hk loc (hperm.mem_iff.mp hloc)
  have hlen_orders := length_build_order_strings (k := k) n.toNat hkol
  rw [List.length_map, hperm.length_eq] at hlen_orders
  obtain ⟨keys, hkeys, _⟩ := tryMap_eq_some_of_isSome hkey
  obtain ⟨ids, hids, hfa⟩ := tryMap_eq_some_of_isSome hvocab
  have hposol : ∀ loc ∈ orderable_locs_of LOCS (strip_waive apo) player_locs,
      (LOCS.findIdx? (· == loc)).isSome := fun loc hloc => hpos loc (hperm.mem_iff.mp hloc)
  obtain ⟨positions, hpositions, _⟩ := tryMap_eq_some_of_isSome hposol
  have hidslen : ids.length = Nat.choose player_locs.length n.toNat * k ^ n.toNat := by
    rw [← hfa.length_eq, hlen_orders]
  refine ⟨ids, setLocs (empty_loc_idxs LOCS) positions (-2), hfa, hidslen, ?_⟩
  have hle : ids.length ≤ MAX_VALID_LEN := by rw [hidslen]; exact hbound
  unfold get_valid_orders_impl
  rw [h_locs]
  simp only [hkeys, h_builds, orderable_locs_of]
  rw [if_pos hn]
  simp only [orderable_locs_of] at hids hpositions
  simp only [hids]
  rw [if_pos hle]
  simp only [hpositions]
  rfl

/-- Concrete instance of C1: Austria owes 1 build with 2 orderable
locations of 2 candidates each, giving `C(2,1) * 2^1 = 4` combination ids,
placed sorted in step 0. -/
theorem get_valid_orders_impl_build_combinatorics_witness :
    (0 : Int) < 1 ∧
    ∃ ids : List Nat, ∃ locIdxsOut : List Int,
      List.Forall₂
        (fun s i =>
          ORDER_VOCABULARY_TO_IDX ["A VIE B", "F VIE B", "A BUD B", "F BUD B"] s = some i)
        (build_order_strings
          ((orderable_locs_of ["VIE", "BUD"]
              (strip_waive [("VIE", ["A VIE B", "F VIE B"]), ("BUD", ["A BUD B", "F BUD B"])])
              ["BUD", "VIE"]).map
            (fun loc =>
              ((strip_waive [("VIE", ["A VIE B", "F VIE B"]),
                  ("BUD", ["A BUD B", "F BUD B"])]).lookup loc).getD []))
          (1 : Int).toNat) ids ∧
      ids.length = Nat.choose (["BUD", "VIE"] : List String).length (1 : Int).toNat *
        2 ^ (1 : Int).toNat ∧
      get_valid_orders_impl ["A VIE B", "F VIE B", "A BUD B", "F BUD B"] ["VIE", "BUD"]
          "AUSTRIA" [("VIE", ["A VIE B", "F VIE B"]), ("BUD", ["A BUD B", "F BUD B"])]
          [("AUSTRIA", ["BUD", "VIE"])] [("AUSTRIA", 1)] =
        some (empty_order_idxs.set 0
                (writeRow (List.replicate MAX_VALID_LEN EOS_IDX)
                  (sortedInts (ids.map Int.ofNat))),
              locIdxsOut, 1) :=
  ⟨by decide,
    get_valid_orders_impl_build_combinatorics
      ["A VIE B", "F VIE B", "A BUD B", "F BUD B"] ["VIE", "BUD"] "AUSTRIA"
      [("VIE", ["A VIE B", "F VIE B"]), ("BUD", ["A BUD B", "F BUD B"])]
      [("AUSTRIA", ["BUD", "VIE"])] [("AUSTRIA", 1)] ["BUD", "VIE"] 1 2
      (by decide) (by decide) (by decide) (by decide) (by decide) (by decide)
      (by decide) (by decide)⟩

/-- The sort key `LOCS.index(ORDER_VOCABULARY[idx].split()[1])` used to
reorder resolved ids into canonical location order; a too-short vocabulary
string or an unknown location raises in Python, modelled as `none`. -/
def order_loc_key (vocab LOCS : List String) (idx : Nat) : Option Nat :=
  match (pySplit (ORDER_VOCABULARY_get vocab idx))[1]? with
  | none => none
  | some fld => LOCS.findIdx? (· == fld)

/-- `order_idxs.sort(key=...)`: stable ascending sort of the resolved ids
by canonical location position. -/
def sort_by_loc (vocab LOCS : List String) (ids : List Nat) : List Nat :=
  List.insertionSort
    (fun a b => (order_loc_key vocab LOCS a).getD 0 ≤ (order_loc_key vocab LOCS b).getD 0)
    ids

/-- The final loop of `encode_power_actions`: for each resolved id in
order, look up its position in its step's candidate row and write it into
the label array.  A missing row, an id absent from its row, or a write past
the label array raises IndexError, caught by returning the partially
written labels with `valid = False`. -/
def stepLoop (xpa : List (List Int)) : Nat → List Int → List Int → List Int × Bool
  | _, y, [] => (y, true)
  | i, y, idx :: rest =>
    match xpa[i]? with
    | none => (y, false)
    | some row =>
      match row.findIdx? (· == idx) with
      | none => (y, false)
      | some pos =>
        if i < y.length then stepLoop xpa (i + 1) (y.set i (Int.ofNat pos)) rest
        else (y, false)

/-- `encode_power_actions`: encode one player's issued orders against the
`[MAX_SEQ_LEN, MAX_VALID_LEN]` candidate tensor, returning the
`MAX_SEQ_LEN`-long sentinel-padded label array and the validity flag.
`none` models an uncaught exception (the mixed-build `assert`, or a
ValueError escaping the key function of `list.sort`). -/
def encode_power_actions (vocab LOCS : List String) (orders : List String)
    (xpa : List (List Int)) : Option (List Int × Bool) :=
  if orders.any (fun o => (pySplit o).length < 3) then
    some (List.replicate MAX_SEQ_LEN EOS_IDX, false)
  else if orders.any (fun o => (pySplit o).getD 2 "" == "B") then
    if orders.all (fun o => (pySplit o).getD 2 "" == "B") then
      match ORDER_VOCABULARY_TO_IDX vocab (String.intercalate ";" (pySorted orders)) with
      | none => some (List.replicate MAX_SEQ_LEN EOS_IDX, false)
      | some order_idx =>
        match tryMap (order_loc_key vocab LOCS) [order_idx] with
        | none => none
        | some _ =>
          some (stepLoop xpa 0 (List.replicate MAX_SEQ_LEN EOS_IDX)
            ((sort_by_loc vocab LOCS [order_idx]).map Int.ofNat))
    else none
  else
    match tryMap (order_loc_key vocab LOCS) (orders.filterMap (smarter_order_index vocab)) with
    | none => none
    | some _ =>
      some (stepLoop xpa 0 (List.replicate MAX_SEQ_LEN EOS_IDX)
        ((sort_by_loc vocab LOCS (orders.filterMap (smarter_order_index vocab))).map
          Int.ofNat))

/-- C9: an order list with well-formed (≥ 3 field) orders mixing at least
one build with at least one non-build trips the `assert` in
`encode_power_actions` — the call raises instead of returning a label array
with a validity flag. -/
theorem encode_power_actions_mixed_build_asserts (vocab LOCS : List String)
    (orders : List String) (xpa : List (List Int))
    (hfields : ∀ o ∈ orders, ¬ (pySplit o).length < 3)
    (hB : ∃ o ∈ orders, (pySplit o).getD 2 "" = "B")
    (hnB : ∃ o ∈ orders, (pySplit o).getD 2 "" ≠ "B") :
    encode_power_actions vocab LOCS orders xpa = none := by
  have h1 : (orders.any fun o => decide ((pySplit o).length < 3)) = false := by
    rw [List.any_eq_false]
    intro o ho
    simpa using hfields o ho
  have h2 : (orders.any fun o => (pySplit o).getD 2 "" == "B") = true := by
    rw [List.any_eq_true]
    obtain ⟨ob, hob, hobB⟩ := hB
    exact ⟨ob, hob, beq_iff_eq.mpr hobB⟩
  have h3 : (orders.all fun o => (pySplit o).getD 2 "" == "B") = false := by
    obtain ⟨onn, honn, honnB⟩ := hnB
    rw [← Bool.not_eq_true, List.all_eq_true]
    intro hall
    exact honnB (beq_iff_eq.mp (hall onn honn))
  unfold encode_power_actions
  rw [h1, h2, h3]
  simp

/-- Concrete instance of C9: `["A VIE B", "A BUD H"]` mixes a build with a
non-build, so the call raises. -/
theorem encode_power_actions_mixed_build_asserts_witness :
    encode_power_actions ["A VIE B", "A BUD H"] ["VIE", "BUD"]
      ["A VIE B", "A BUD H"] [] = none :=
  encode_power_actions_mixed_build_asserts ["A VIE B", "A BUD H"] ["VIE", "BUD"]
    ["A VIE B", "A BUD H"] [] (by decide)
    ⟨"A VIE B", by decide⟩ ⟨"A BUD H", by decide⟩

/-- C7: an order list containing an unparseably short order (fewer than 3
whitespace-separated fields) is rejected whole — `valid = False` with an
all-sentinel label array; and in a non-build order list, an individual
order that resolves to no vocabulary id even after the coastal fallback is
silently dropped, leaving the result unchanged. -/
theorem encode_power_actions_short_and_drop (vocab LOCS : List String)
    (orders₁ orders₂ : List String) (o : String) (xpa : List (List Int)) :
    (∀ orders : List String, (∃ q ∈ orders, (pySplit q).length < 3) →
      encode_power_actions vocab LOCS orders xpa =
        some (List.replicate MAX_SEQ_LEN EOS_IDX, false)) ∧
    (¬ (pySplit o).length < 3 →
      (pySplit o).getD 2 "" ≠ "B" →
      smarter_order_index vocab o = none →
      (∀ q ∈ orders₁ ++ orders₂,
        ¬ (pySplit q).length < 3 ∧ (pySplit q).getD 2 "" ≠ "B") →
      encode_power_actions vocab LOCS (orders₁ ++ o :: orders₂) xpa =
        encode_power_actions vocab LOCS (orders₁ ++ orders₂) xpa) := by
  constructor
  · rintro orders ⟨q, hq, hqlt⟩
    unfold encode_power_actions
    rw [if_pos]
    rw [List.any_eq_true]
    exact ⟨q, hq, decide_eq_true hqlt⟩
  · intro ho1 ho2 ho3 hrest
    have key : ∀ q ∈ orders₁ ++ o :: orders₂,
        ¬ (pySplit q).length < 3 ∧ (pySplit q).getD 2 "" ≠ "B" := by
      intro q hq
      rcases List.mem_append.mp hq with h | h
      · exact hrest q (List.mem_append_left _ h)
      · rcases List.mem_cons.mp h with rfl | h
        · exact ⟨ho1, ho2⟩
        · exact hrest q (List.mem_append_right _ h)
    have a1 : ((orders₁ ++ o :: orders₂).any fun q => decide ((pySplit q).length < 3))
        = false := by
      rw [List.any_eq_false]; intro q hq; simpa using (key q hq).1
    have a2 : ((orders₁ ++ o :: orders₂).any fun q => (pySplit q).getD 2 "" == "B")
        = false := by
      rw [List.any_eq_false]; intro q hq; simpa using (key q hq).2
    have b1 : ((orders₁ ++ orders₂).any fun q => decide ((pySplit q).length < 3))
        = false := by
      rw [List.any_eq_false]; intro q hq; simpa using (hrest q hq).1
    have b2 : ((orders₁ ++ orders₂).any fun q => (pySplit q).getD 2 "" == "B")
        = false := by
      rw [List.any_eq_false]; intro q hq; simpa using (hrest q hq).2
    have e3 : (orders₁ ++ o :: orders₂).filterMap (smarter_order_index vocab) =
        (orders₁ ++ orders₂).filterMap (smarter_order_index vocab) := by
      simp [List.filterMap_append, List.filterMap_cons, ho3]
    unfold encode_power_actions
    rw [a1, b1, a2, b2, e3]
    rfl

/-- Concrete instance of C7: `["A PAR"]` has a 2-field order, so the whole
sample is invalid with all-sentinel labels; and the unresolvable
`"A XXX H"` is dropped from a non-build list without changing the
result. -/
theorem encode_power_actions_short_and_drop_witness :
    encode_power_actions ["A VIE H"] ["VIE"] ["A PAR"] [[0]] =
      some (List.replicate MAX_SEQ_LEN EOS_IDX, false) ∧
    encode_power_actions ["A VIE H"] ["VIE"] (["A VIE H"] ++ "A XXX H" :: []) [[0]] =
      encode_power_actions ["A VIE H"] ["VIE"] (["A VIE H"] ++ []) [[0]] :=
  ⟨(encode_power_actions_short_and_drop ["A VIE H"] ["VIE"] ["A VIE H"] []
      "A XXX H" [[0]]).1 ["A PAR"] ⟨"A PAR", by decide, by decide⟩,
   (encode_power_actions_short_and_drop ["A VIE H"] ["VIE"] ["A VIE H"] []
      "A XXX H" [[0]]).2 (by decide) (by decide) (by decide) (by decide)⟩

theorem stepLoop_failure (xpa : List (List Int)) :
    ∀ (l : List Int) (i : Nat) (y : List Int),
    (∃ j, j < l.length ∧ ((xpa.getD (i + j) []).findIdx? (· == l.getD j 0)) = none) →
    ∃ y', stepLoop xpa i y l = (y', false) := by
  intro l
  induction l with
  | nil =>
    rintro i y ⟨j, hj, _⟩
    exact absurd hj (Nat.not_lt_zero j)
  | cons idx rest ih =>
    rintro i y ⟨j, hj, hnone⟩
    cases hx : xpa[i]? with
    | none => exact ⟨y, by simp [stepLoop, hx]⟩
    | some row =>
      have hrow : xpa.getD i [] = row := by simp [List.getD, hx]
      cases j with
      | zero =>
        rw [Nat.add_zero, hrow, List.getD_cons_zero] at hnone
        exact ⟨y, by simp [stepLoop, hx, hnone]⟩
      | succ k =>
        cases hfd : row.findIdx? (· == idx) with
        | none => exact ⟨y, by simp [stepLoop, hx, hfd]⟩
        | some pos =>
          by_cases hiy : i < y.length
          · have hshift : ((i + 1) + k) = i + (k + 1) := by omega
            obtain ⟨y', hy'⟩ := ih (i + 1) (y.set i (Int.ofNat pos))
              ⟨k, by simpa using hj, by rw [hshift]; simpa [List.getD_cons_succ] using hnone⟩
            refine ⟨y', ?_⟩
            simp [stepLoop, hx, hfd, hiy]
            exact hy'
          · exact ⟨y, by simp [stepLoop, hx, hfd, hiy]⟩

theorem stepLoop_success (xpa : List (List Int)) :
    ∀ (l : List Int) (i : Nat) (y : List Int),
    i + l.length ≤ y.length →
    (∀ j, j < l.length → ((xpa.getD (i + j) []).findIdx? (· == l.getD j 0)).isSome) →
    ∃ y', stepLoop xpa i y l = (y', true) ∧ y'.length = y.length ∧
      (∀ j, j < l.length → ∃ pos,
        (xpa.getD (i + j) []).findIdx? (· == l.getD j 0) = some pos ∧
        y'.getD (i + j) 0 = Int.ofNat pos) ∧
      (∀ p, p < i ∨ i + l.length ≤ p → y'.getD p 0 = y.getD p 0) := by
  intro l
  induction l with
  | nil =>
    intro i y _ _
    exact ⟨y, rfl, rfl, fun j hj => absurd hj (Nat.not_lt_zero j), fun p _ => rfl⟩
  | cons idx rest ih =>
    intro i y hbound hfound
    have h0 := hfound 0 (Nat.succ_pos _)
    rw [Nat.add_zero, List.getD_cons_zero] at h0
    have hilt : i < xpa.length := by
      by_contra hge
      rw [List.getD_eq_default _ _ (by omega)] at h0
      simp [List.findIdx?] at h0
    have hex : ∃ row, xpa[i]? = some row := by
      rw [List.getElem?_eq_getElem hilt]
      exact ⟨_, rfl⟩
    obtain ⟨row, hx⟩ := hex
    have hrowD : xpa.getD i [] = row := by simp [List.getD, hx]
    rw [hrowD] at h0
    obtain ⟨pos, hfd⟩ := Option.isSome_iff_exists.mp h0
    have hiy : i < y.length := by simp at hbound; omega
    have hfound' : ∀ j, j < rest.length →
        ((xpa.getD ((i + 1) + j) []).findIdx? (· == rest.getD j 0)).isSome := by
      intro j hj
      have hshift : ((i + 1) + j) = i + (j + 1) := by omega
      rw [hshift]
      simpa [List.getD_cons_succ] using hfound (j + 1) (by simpa using hj)
    obtain ⟨y', hstep, hlen, hlab, hout⟩ := ih (i + 1) (y.set i (Int.ofNat pos))
      (by simp at hbound ⊢; omega) hfound'
    refine ⟨y', ?_, by simp [hlen], ?_, ?_⟩
    · simp [stepLoop, hx, hfd, hiy]
      exact hstep
    · intro j hj
      cases j with
      | zero =>
        refine ⟨pos, by rw [Nat.add_zero, List.getD_cons_zero, hrowD]; exact hfd, ?_⟩
        rw [Nat.add_zero]
        have := hout i (Or.inl (by omega))
        rw [this]
        simp [List.getD, List.getElem?_set_self hiy]
      | succ k =>
        have hk : k < rest.length := by simpa using hj
        obtain ⟨pos', hfd', hy'⟩ := hlab k hk
        have hshift : ((i + 1) + k) = i + (k + 1) := by omega
        rw [hshift] at hfd' hy'
        exact ⟨pos', by simpa [List.getD_cons_succ] using hfd', hy'⟩
    · intro p hp
      have hne : i ≠ p := by rcases hp with h | h <;> [omega; (simp at h; omega)]
      have := hout p (by rcases hp with h | h
                         · exact Or.inl (by omega)
                         · exact Or.inr (by simp at h ⊢; omega))
      rw [this]
      simp [List.getD, List.getElem?_set, hne]

/-- The resolved ids of a non-build order list, reordered into canonical
location order — the sequence the final matching loop of
`encode_power_actions` walks. -/
def resolved_sorted_ids (vocab LOCS : List String) (orders : List String) : List Nat :=
  sort_by_loc vocab LOCS (orders.filterMap (smarter_order_index vocab))

theorem getD_map_ofNat (L : List Nat) (j : Nat) (hj : j < L.length) :
    (L.map Int.ofNat).getD j 0 = Int.ofNat (L.getD j 0) := by
  simp [List.getD, List.getElem?_map, List.getElem?_eq_getElem hj]

/-- C4: for a well-formed non-build order list whose resolved ids (after
coastal fallback) each occur in their step's candidate list,
`encode_power_actions` returns `valid = true` and a label array whose
non-sentinel prefix holds, in canonical location order, each order's
position within its step's candidates; if any resolved id is absent from
its step's candidate list, it returns `valid = false`. -/
theorem encode_power_actions_candidate_match (vocab LOCS : List String)
    (orders : List String) (xpa : List (List Int))
    (hfields : ∀ o ∈ orders, ¬ (pySplit o).length < 3)
    (hnB : ∀ o ∈ orders, (pySplit o).getD 2 "" ≠ "B")
    (hres : ∀ o ∈ orders, (smarter_order_index vocab o).isSome)
    (hkeys : ∀ i ∈ orders.filterMap (smarter_order_index vocab),
      (order_loc_key vocab LOCS i).isSome)
    (hxpa : xpa.length ≤ MAX_SEQ_LEN) :
    ((resolved_sorted_ids vocab LOCS orders).Perm
        (orders.filterMap (smarter_order_index vocab)) ∧
      List.Sorted
        (fun a b =>
          (order_loc_key vocab LOCS a).getD 0 ≤ (order_loc_key vocab LOCS b).getD 0)
        (resolved_sorted_ids vocab LOCS orders)) ∧
    ((∀ j, j < (resolved_sorted_ids vocab LOCS orders).length →
        ((xpa.getD j []).findIdx?
          (· == Int.ofNat ((resolved_sorted_ids vocab LOCS orders).getD j 0))).isSome) →
      ∃ y, encode_power_actions vocab LOCS orders xpa = some (y, true) ∧
        y.length = MAX_SEQ_LEN ∧
        (∀ j, j < (resolved_sorted_ids vocab LOCS orders).length → ∃ pos,
          (xpa.getD j []).findIdx?
            (· == Int.ofNat ((resolved_sorted_ids vocab LOCS orders).getD j 0)) =
              some pos ∧
          y.getD j 0 = Int.ofNat pos) ∧
        (∀ p, (resolved_sorted_ids vocab LOCS orders).length ≤ p → p < MAX_SEQ_LEN →
          y.getD p 0 = EOS_IDX)) ∧
    ((∃ j, j < (resolved_sorted_ids vocab LOCS orders).length ∧
        ((xpa.getD j []).findIdx?
          (· == Int.ofNat ((resolved_sorted_ids vocab LOCS orders).getD j 0))) = none) →
      ∃ y, encode_power_actions vocab LOCS orders xpa = some (y, false)) := by
  have a1 : (orders.any fun o => decide ((pySplit o).length < 3)) = false := by
    rw [List.any_eq_false]; intro q hq; simpa using hfields q hq
  have a2 : (orders.any fun o => (pySplit o).getD 2 "" == "B") = false := by
    rw [List.any_eq_false]
    intro q hq
    simp only [beq_iff_eq]
    exact hnB q hq
  obtain ⟨ks, hks, _⟩ := tryMap_eq_some_of_isSome hkeys
  have henc : encode_power_actions vocab LOCS orders xpa =
      some (stepLoop xpa 0 (List.replicate MAX_SEQ_LEN EOS_IDX)
        ((resolved_sorted_ids vocab LOCS orders).map Int.ofNat)) := by
    unfold encode_power_actions
    rw [a1, a2, hks]
    rfl
  refine ⟨⟨List.perm_insertionSort _ _, ?_⟩, ?_, ?_⟩
  · haveI : IsTotal Nat (fun a b =>
        (order_loc_key vocab LOCS a).getD 0 ≤ (order_loc_key vocab LOCS b).getD 0) :=
      ⟨fun a b => Nat.le_total _ _⟩
    haveI : IsTrans Nat (fun a b =>
        (order_loc_key vocab LOCS a).getD 0 ≤ (order_loc_key vocab LOCS b).getD 0) :=
      ⟨fun a b c => Nat.le_trans⟩
    exact List.sorted_insertionSort _ _
  · intro hfound
    have hlx : (resolved_sorted_ids vocab LOCS orders).length ≤ xpa.length := by
      by_contra hgt
      push_neg at hgt
      have hi := hfound xpa.length (by omega)
      rw [List.getD_eq_default _ _ (le_refl _)] at hi
      simp [List.findIdx?] at hi
    have hfound' : ∀ j, j < ((resolved_sorted_ids vocab LOCS orders).map Int.ofNat).length →
        ((xpa.getD (0 + j) []).findIdx?
          (· == ((resolved_sorted_ids vocab LOCS orders).map Int.ofNat).getD j 0)).isSome := by
      intro j hj
      rw [Nat.zero_add]
      have hj' : j < (resolved_sorted_ids vocab LOCS orders).length := by simpa using hj
      rw [getD_map_ofNat _ j hj']
      exact hfound j hj'
    obtain ⟨y, hstep, hylen, hlab, hout⟩ := stepLoop_success xpa
      ((resolved_sorted_ids vocab LOCS orders).map Int.ofNat) 0
      (List.replicate MAX_SEQ_LEN EOS_IDX)
      (by simp only [List.length_replicate, List.length_map, Nat.zero_add]; omega) hfound'
    refine ⟨y, by rw [henc, hstep], by simpa using hylen, ?_, ?_⟩
    · intro j hj
      obtain ⟨pos, h1, h2⟩ := hlab j (by simpa using hj)
      rw [Nat.zero_add] at h1 h2
      rw [getD_map_ofNat _ j hj] at h1
      exact ⟨pos, h1, h2⟩
    · intro p hp1 hp2
      have := hout p (Or.inr (by simpa using hp1))
      rw [this]
      simp [List.getD, List.getElem?_replicate, hp2]
  · rintro ⟨j, hj, hnone⟩
    obtain ⟨y, hy⟩ := stepLoop_failure xpa
      ((resolved_sorted_ids vocab LOCS orders).map Int.ofNat) 0
      (List.replicate MAX_SEQ_LEN EOS_IDX)
      ⟨j, by simpa using hj, by rw [Nat.zero_add, getD_map_ofNat _ j hj]; exact hnone⟩
    exact ⟨y, by rw [henc, hy]⟩

/-- Concrete instance of C4: both resolved ids occur in their step's
candidate row, so the sample is valid with labels in canonical location
order. -/
theorem encode_power_actions_candidate_match_witness :
    (∀ j, j < (resolved_sorted_ids ["A VIE H", "A BUD H"] ["BUD", "VIE"]
        ["A VIE H", "A BUD H"]).length →
      ((([[1], [5, 0]] : List (List Int)).getD j []).findIdx?
        (· == Int.ofNat ((resolved_sorted_ids ["A VIE H", "A BUD H"] ["BUD", "VIE"]
          ["A VIE H", "A BUD H"]).getD j 0))).isSome) ∧
    (∃ y, encode_power_actions ["A VIE H", "A BUD H"] ["BUD", "VIE"]
        ["A VIE H", "A BUD H"] [[1], [5, 0]] = some (y, true) ∧
      y.length = MAX_SEQ_LEN ∧
      (∀ j, j < (resolved_sorted_ids ["A VIE H", "A BUD H"] ["BUD", "VIE"]
          ["A VIE H", "A BUD H"]).length → ∃ pos,
        (([[1], [5, 0]] : List (List Int)).getD j []).findIdx?
          (· == Int.ofNat ((resolved_sorted_ids ["A VIE H", "A BUD H"] ["BUD", "VIE"]
            ["A VIE H", "A BUD H"]).getD j 0)) = some pos ∧
        y.getD j 0 = Int.ofNat pos) ∧
      (∀ p, (resolved_sorted_ids ["A VIE H", "A BUD H"] ["BUD", "VIE"]
          ["A VIE H", "A BUD H"]).length ≤ p → p < MAX_SEQ_LEN →
        y.getD p 0 = EOS_IDX)) :=
  ⟨by decide,
    (encode_power_actions_candidate_match ["A VIE H", "A BUD H"] ["BUD", "VIE"]
      ["A VIE H", "A BUD H"] [[1], [5, 0]] (by decide) (by decide) (by decide)
      (by decide) (by decide)).2.1 (by decide)⟩

/-- One recorded turn: its name (e.g. `"S1901M"`) and the per-player square
scores of its state.  `compute_game_scores_from_state` lives outside
`src/`; modelled from the spec ("supply-center count squared, normalized
across all players"), the per-phase square scores are carried as data. -/
structure PhaseModel where
  name : String
  sqScores : List Rat

/-- A recorded match: the ordered phase history plus the final square
scores `game.get_square_scores()` (rules-engine collaborator, outside
`src/`), carried as data.  Score vectors have one entry per player slot
(7); the theorems state this as a hypothesis. -/
structure GameModel where
  phases : List PhaseModel
  squareScores : List Rat

/-- Decimal digit run to a number; anything else fails. -/
def parseDigits (l : List Char) : Option Nat :=
  if l.isEmpty then none
  else
    l.foldl
      (fun acc c =>
        acc.bind (fun n =>
          if c.isDigit then some (n * 10 + (c.toNat - '0'.toNat)) else none))
      (some 0)

/-- Python `int(...)`: optional leading minus then digits; a parse failure
raises, modelled as `none`. -/
def parseIntChars : List Char → Option Int
  | '-' :: rest => (parseDigits rest).map (fun n => -(n : Int))
  | l => (parseDigits l).map (fun n => (n : Int))

/-- `int(phase.name[1:-1])`: the calendar year of a phase name.  All
phases with unparsable names share the `none` key (Python would raise
there instead; no claim exercises that case). -/
def yearOf (name : String) : Option Int :=
  parseIntChars (name.data.drop 1).dropLast

/-- One `dict[key] = value` assignment with insertion order preserved:
overwrite in place if the key exists, else append. -/
def upsert (m : List (Option Int × String)) (k : Option Int) (v : String) :
    List (Option Int × String) :=
  if m.any (fun p => p.1 == k) then m.map (fun p => if p.1 == k then (k, v) else p)
  else m ++ [(k, v)]

/-- The `end_of_year_phases` construction: a dict keyed by calendar year,
each phase overwriting its year's entry, then the set of surviving names
(only membership is ever tested). -/
def end_of_year_phases (phases : List PhaseModel) : List String :=
  (phases.foldl (fun m ph => upsert m (yearOf ph.name) ph.name) []).map Prod.snd

/-- Elementwise tensor addition. -/
def vecAdd (a b : List Rat) : List Rat := List.zipWith (· + ·) a b

/-- Scalar-times-tensor. -/
def vecSmul (c : Rat) (v : List Rat) : List Rat := v.map (fun x => c * x)

/-- The accumulation loop of `encode_weighted_sos_scores`: walk the phases
after the start index; at each year-end phase add `weight * sqScores` to
the running total, subtract `weight` from the remaining mass, and decay
`weight` by `α`. -/
def sosLoop (eoy : List String) (α : Rat) :
    List PhaseModel → List Rat × Rat × Rat → List Rat × Rat × Rat
  | [], st => st
  | ph :: rest, (y, remaining, weight) =>
    if ph.name ∈ eoy then
      sosLoop eoy α rest
        (vecAdd y (vecSmul weight ph.sqScores), remaining - weight, weight * α)
    else sosLoop eoy α rest (y, remaining, weight)

/-- `encode_weighted_sos_scores`: the per-player decayed square-score
target for one start phase.  At the match's last phase, the instantaneous
square scores; otherwise the `sosLoop` accumulation plus the remaining
mass applied to the final square scores. -/
def encode_weighted_sos_scores (g : GameModel) (phase_idx : Nat) (α : Rat) : List Rat :=
  if phase_idx + 1 = g.phases.length then
    (g.phases.getD phase_idx ⟨"", []⟩).sqScores
  else
    let eoy := end_of_year_phases g.phases
    let st := sosLoop eoy α (g.phases.drop (phase_idx + 1))
      (List.replicate 7 (0 : Rat), 1, 1 - α)
    vecAdd st.1 (vecSmul st.2.1 g.squareScores)

/-- The geometric weight sequence `w, w*α, w*α², …` of length `K`. -/
def geomWeights (w α : Rat) (K : Nat) : List Rat :=
  (List.range K).map (fun j => w * α ^ j)

/-- Direct-recursion form of the decayed weighted score sum. -/
def decayedSum (α : Rat) : Rat → List (List Rat) → List Rat
  | _, [] => List.replicate 7 (0 : Rat)
  | w, s :: rest => vecAdd (vecSmul w s) (decayedSum α (w * α) rest)

/-- Positional form: the `j`-th score vector scaled by the `j`-th weight,
summed. -/
def vecWeighted (ws : List Rat) (vs : List (List Rat)) : List Rat :=
  (List.zipWith vecSmul ws vs).foldr vecAdd (List.replicate 7 (0 : Rat))

theorem vecAdd_assoc (a b c : List Rat) :
    vecAdd (vecAdd a b) c = vecAdd a (vecAdd b c) := by
  induction a generalizing b c with
  | nil => simp [vecAdd]
  | cons x xs ih =>
    cases b with
    | nil => simp [vecAdd]
    | cons y ys =>
      cases c with
      | nil => simp [vecAdd]
      | cons z zs =>
        simp only [vecAdd, List.zipWith_cons_cons, add_assoc]
        exact congrArg _ (ih ys zs)

theorem vecAdd_zero_left (d : List Rat) :
    vecAdd (List.replicate d.length 0) d = d := by
  induction d with
  | nil => rfl
  | cons x xs ih => simp [vecAdd, List.replicate_succ] at ih ⊢; exact ih

theorem vecAdd_zero_right (d : List Rat) :
    vecAdd d (List.replicate d.length 0) = d := by
  induction d with
  | nil => rfl
  | cons x xs ih => simp [vecAdd, List.replicate_succ] at ih ⊢; exact ih

theorem vecAdd_length (a b : List Rat) :
    (vecAdd a b).length = min a.length b.length := by
  simp [vecAdd]

theorem decayedSum_length (α : Rat) :
    ∀ (vs : List (List Rat)) (w : Rat), (∀ s ∈ vs, s.length = 7) →
    (decayedSum α w vs).length = 7 := by
  intro vs
  induction vs with
  | nil => intro w _; simp [decayedSum]
  | cons s rest ih =>
    intro w h
    rw [decayedSum, vecAdd_length]
    have h1 : (vecSmul w s).length = 7 := by simp [vecSmul, h s (by simp)]
    have h2 := ih (w * α) (fun x hx => h x (by simp [hx]))
    omega

theorem geomWeights_cons (w α : Rat) (K : Nat) :
    geomWeights w α (K + 1) = w :: geomWeights (w * α) α K := by
  simp only [geomWeights, List.range_succ_eq_map, List.map_cons, List.map_map,
    pow_zero, mul_one]
  congr 1
  apply List.map_congr_left
  intro j _
  simp only [Function.comp_apply]
  rw [pow_succ]
  ring

theorem decayedSum_eq_vecWeighted (α : Rat) :
    ∀ (vs : List (List Rat)) (w : Rat),
    decayedSum α w vs = vecWeighted (geomWeights w α vs.length) vs := by
  intro vs
  induction vs with
  | nil => intro w; rfl
  | cons s rest ih =>
    intro w
    rw [decayedSum, ih (w * α), List.length_cons, geomWeights_cons]
    rfl

theorem geomWeights_sum (α : Rat) : ∀ K : Nat,
    (geomWeights (1 - α) α K).sum + α ^ K = 1 := by
  intro K
  induction K with
  | zero => simp [geomWeights]
  | succ n ih =>
    rw [geomWeights, List.range_succ, List.map_append, List.sum_append]
    rw [show (List.range n).map (fun j => (1 - α) * α ^ j) = geomWeights (1 - α) α n
      from rfl]
    simp only [List.map_cons, List.map_nil, List.sum_cons, List.sum_nil]
    linear_combination ih

theorem sosLoop_eq (eoy : List String) (α : Rat) :
    ∀ (ps : List PhaseModel) (y : List Rat) (r w : Rat),
    y.length = 7 → (∀ ph ∈ ps, ph.sqScores.length = 7) →
    sosLoop eoy α ps (y, r, w) =
      (vecAdd y (decayedSum α w
        ((ps.filter (fun ph => ph.name ∈ eoy)).map PhaseModel.sqScores)),
       r - (geomWeights w α ((ps.filter (fun ph => ph.name ∈ eoy)).length)).sum,
       w * α ^ ((ps.filter (fun ph => ph.name ∈ eoy)).length)) := by
  intro ps
  induction ps with
  | nil =>
    intro y r w hy _
    simp only [sosLoop, List.filter_nil, List.map_nil, List.length_nil, decayedSum,
      geomWeights, List.range_zero, List.sum_nil, pow_zero, mul_one, sub_zero]
    rw [← hy, vecAdd_zero_right]
  | cons ph rest ih =>
    intro y r w hy hsc
    by_cases h : ph.name ∈ eoy
    · have hlen : (vecAdd y (vecSmul w ph.sqScores)).length = 7 := by
        rw [vecAdd_length]
        have : (vecSmul w ph.sqScores).length = 7 := by
          simp [vecSmul, hsc ph (by simp)]
        omega
      rw [show sosLoop eoy α (ph :: rest) (y, r, w) =
          sosLoop eoy α rest
            (vecAdd y (vecSmul w ph.sqScores), r - w, w * α) by
        simp [sosLoop, h]]
      rw [ih _ _ _ hlen (fun x hx => hsc x (by simp [hx]))]
      have hfil : (ph :: rest).filter (fun p => decide (p.name ∈ eoy)) =
          ph :: rest.filter (fun p => decide (p.name ∈ eoy)) := by
        simp [List.filter_cons, h]
      rw [hfil]
      refine Prod.ext ?_ (Prod.ext ?_ ?_)
      · simp only [List.map_cons, decayedSum, vecAdd_assoc]
      · simp only [List.length_cons, geomWeights_cons, List.sum_cons]
        ring
      · simp only [List.length_cons, pow_succ]
        ring
    · rw [show sosLoop eoy α (ph :: rest) (y, r, w) =
          sosLoop eoy α rest (y, r, w) by simp [sosLoop, h]]
      rw [ih _ _ _ hy (fun x hx => hsc x (by simp [hx]))]
      have hfil : (ph :: rest).filter (fun p => decide (p.name ∈ eoy)) =
          rest.filter (fun p => decide (p.name ∈ eoy)) := by
        simp [List.filter_cons, h]
      rw [hfil]

/-- C2: for a nonempty phase list, a valid start index and decay
`α ∈ [0,1)`: if the start phase is the last, `encode_weighted_sos_scores`
returns that phase's per-player square scores; otherwise it applies weight
`(1-α)·α^j` to the `j`-th subsequent year-end phase's square scores plus
the remaining mass `α^K` to the match's final square scores, and those
weights sum to exactly 1. -/
theorem encode_weighted_sos_scores_weights (g : GameModel) (phase_idx : Nat) (α : Rat)
    (hne : g.phases ≠ []) (hidx : phase_idx < g.phases.length)
    (hα0 : 0 ≤ α) (hα1 : α < 1)
    (hsc : ∀ ph ∈ g.phases, ph.sqScores.length = 7)
    (hfin : g.squareScores.length = 7) :
    (phase_idx + 1 = g.phases.length →
      encode_weighted_sos_scores g phase_idx α =
        (g.phases.getD phase_idx ⟨"", []⟩).sqScores) ∧
    (phase_idx + 1 ≠ g.phases.length →
      encode_weighted_sos_scores g phase_idx α =
        vecAdd
          (vecWeighted
            (geomWeights (1 - α) α
              (((g.phases.drop (phase_idx + 1)).filter
                (fun ph => ph.name ∈ end_of_year_phases g.phases)).length))
            (((g.phases.drop (phase_idx + 1)).filter
              (fun ph => ph.name ∈ end_of_year_phases g.phases)).map PhaseModel.sqScores))
          (vecSmul
            (α ^ (((g.phases.drop (phase_idx + 1)).filter
              (fun ph => ph.name ∈ end_of_year_phases g.phases)).length))
            g.squareScores) ∧
      (geomWeights (1 - α) α
          (((g.phases.drop (phase_idx + 1)).filter
            (fun ph => ph.name ∈ end_of_year_phases g.phases)).length)).sum +
        α ^ (((g.phases.drop (phase_idx + 1)).filter
          (fun ph => ph.name ∈ end_of_year_phases g.phases)).length) = 1) := by
  constructor
  · intro h
    unfold encode_weighted_sos_scores
    rw [if_pos h]
  · intro h
    have hsc' : ∀ ph ∈ g.phases.drop (phase_idx + 1), ph.sqScores.length = 7 :=
      fun ph hph => hsc ph (List.mem_of_mem_drop hph)
    have hloop := sosLoop_eq (end_of_year_phases g.phases) α
      (g.phases.drop (phase_idx + 1)) (List.replicate 7 0) 1 (1 - α)
      (by simp) hsc'
    have hscF : ∀ s ∈ ((g.phases.drop (phase_idx + 1)).filter
        (fun ph => ph.name ∈ end_of_year_phases g.phases)).map PhaseModel.sqScores,
        s.length = 7 := by
      intro s hs
      obtain ⟨ph, hph, rfl⟩ := List.mem_map.mp hs
      exact hsc' ph (List.mem_of_mem_filter hph)
    have hDlen := decayedSum_length α _ (1 - α) hscF
    have hgeo := geomWeights_sum α
      (((g.phases.drop (phase_idx + 1)).filter
        (fun ph => ph.name ∈ end_of_year_phases g.phases)).length)
    constructor
    · unfold encode_weighted_sos_scores
      rw [if_neg h]
      show vecAdd
          (sosLoop (end_of_year_phases g.phases) α (g.phases.drop (phase_idx + 1))
            (List.replicate 7 0, 1, 1 - α)).1
          (vecSmul
            (sosLoop (end_of_year_phases g.phases) α (g.phases.drop (phase_idx + 1))
              (List.replicate 7 0, 1, 1 - α)).2.1
            g.squareScores) = _
      rw [hloop]
      dsimp only
      rw [show (List.replicate 7 (0 : Rat)) = List.replicate
          (decayedSum α (1 - α) (((g.phases.drop (phase_idx + 1)).filter
            (fun ph => ph.name ∈ end_of_year_phases g.phases)).map
              PhaseModel.sqScores)).length 0 by rw [hDlen]]
      rw [vecAdd_zero_left]
      rw [decayedSum_eq_vecWeighted]
      rw [List.length_map]
      have hrem : 1 - (geomWeights (1 - α) α
          (((g.phases.drop (phase_idx + 1)).filter
            (fun ph => ph.name ∈ end_of_year_phases g.phases)).length)).sum =
          α ^ (((g.phases.drop (phase_idx + 1)).filter
            (fun ph => ph.name ∈ end_of_year_phases g.phases)).length) := by
        linarith [hgeo]
      rw [hrem]
    · exact hgeo

/-- A small concrete match for exercising the score-target computation:
two movement phases and a winter adjustment in 1901, then a 1902 phase. -/
def sosWitnessGame : GameModel :=
  ⟨[⟨"S1901M", [1, 0, 0, 0, 0, 0, 0]⟩,
    ⟨"F1901M", [0, 1, 0, 0, 0, 0, 0]⟩,
    ⟨"W1901A", [0, 0, 1, 0, 0, 0, 0]⟩,
    ⟨"S1902M", [0, 0, 0, 1, 0, 0, 0]⟩],
   [0, 0, 0, 0, 1, 0, 0]⟩

/-- Concrete instance of C2: starting before the last phase with `α = 1/2`,
the target is the decayed combination over the two year-end phases plus the
`α²` remainder on the final scores, and the weights sum to 1. -/
theorem encode_weighted_sos_scores_weights_witness :
    (0 + 1 ≠ sosWitnessGame.phases.length) ∧
    (encode_weighted_sos_scores sosWitnessGame 0 (1 / 2) =
      vecAdd
        (vecWeighted
          (geomWeights (1 - 1 / 2) (1 / 2)
            (((sosWitnessGame.phases.drop (0 + 1)).filter
              (fun ph => ph.name ∈ end_of_year_phases sosWitnessGame.phases)).length))
          (((sosWitnessGame.phases.drop (0 + 1)).filter
            (fun ph => ph.name ∈ end_of_year_phases sosWitnessGame.phases)).map
              PhaseModel.sqScores))
        (vecSmul
          ((1 / 2) ^ (((sosWitnessGame.phases.drop (0 + 1)).filter
            (fun ph => ph.name ∈ end_of_year_phases sosWitnessGame.phases)).length))
          sosWitnessGame.squareScores) ∧
      (geomWeights (1 - 1 / 2) (1 / 2)
          (((sosWitnessGame.phases.drop (0 + 1)).filter
            (fun ph => ph.name ∈ end_of_year_phases sosWitnessGame.phases)).length)).sum +
        (1 / 2) ^ (((sosWitnessGame.phases.drop (0 + 1)).filter
          (fun ph => ph.name ∈ end_of_year_phases sosWitnessGame.phases)).length) = 1) :=
  ⟨by decide,
    (encode_weighted_sos_scores_weights sosWitnessGame 0 (1 / 2)
      (by simp [sosWitnessGame]) (by decide) (by norm_num) (by norm_num) (by decide)
      (by decide)).2 (by decide)⟩

/-- The index-relevant state of a `Dataset`: the parallel index lists that
`preprocess` builds, the phase/game totals, the counterfactual sample
count, and the preprocessed flag.  The columnar tensor storage gathered by
`__getitem__` lives in `DataFields`/`TensorList` (outside `src/`); the
index-arithmetic claims only need which row and sample an index
addresses. -/
structure DatasetModel where
  game_idxs : List Nat
  phase_idxs : List Nat
  power_idxs : List Nat
  x_idxs : List Nat
  num_games : Nat
  num_phases : Nat
  num_elements : Nat
  n_cf_agent_samples : Nat
  preprocessed : Bool

/-- `valid_power_idxs.nonzero()[:, 0]`: the positions of the set bits, in
ascending order. -/
def trueIdxs : List Bool → List Nat
  | [] => []
  | b :: rest => (if b then [0] else []) ++ (trueIdxs rest).map (· + 1)

/-- The inner per-game loop of `Dataset.preprocess`: one
(game, phase, power, x) row per set validity bit, with `phase_idx` local to
the game and `x_idx` counting phases globally. -/
def buildGameRowsAux (game_idx : Nat) :
    Nat → Nat → List (List Bool) → List (Nat × Nat × Nat × Nat)
  | _, _, [] => []
  | phase_idx, x_idx, flags :: rest =>
    (trueIdxs flags).map (fun p => (game_idx, phase_idx, p, x_idx)) ++
      buildGameRowsAux game_idx (phase_idx + 1) (x_idx + 1) rest

/-- The outer loop of `Dataset.preprocess` over the encoded games. -/
def buildRowsAux : Nat → Nat → List (List (List Bool)) → List (Nat × Nat × Nat × Nat)
  | _, _, [] => []
  | game_idx, x_idx, phases :: rest =>
    buildGameRowsAux game_idx 0 x_idx phases ++
      buildRowsAux (game_idx + 1) (x_idx + phases.length) rest

/-- All (game, phase, power, x) index rows of a dataset. -/
def buildRows (games : List (List (List Bool))) : List (Nat × Nat × Nat × Nat) :=
  buildRowsAux 0 0 games

/-- `Dataset.preprocess`, reduced to its index build: a game is an ordered
list of phases, each phase a 7-long validity mask.  Games whose first
phase has no valid power are dropped first (`valid_power_idxs[0].any()`);
then one row is appended per surviving valid (game, phase, power)
triple. -/
def Dataset_preprocess (games : List (List (List Bool))) (n_cf : Nat) : DatasetModel :=
  let kept := games.filter (fun g => (g.headD []).any (fun b => b))
  let rows := buildRows kept
  { game_idxs := rows.map (·.1)
    phase_idxs := rows.map (·.2.1)
    power_idxs := rows.map (·.2.2.1)
    x_idxs := rows.map (·.2.2.2)
    num_games := kept.length
    num_phases := (kept.map List.length).sum
    num_elements := rows.length
    n_cf_agent_samples := n_cf
    preprocessed := true }

/-- `Dataset.__len__`. -/
def Dataset_len (d : DatasetModel) : Nat :=
  d.num_elements * d.n_cf_agent_samples

/-- `Dataset.__getitem__` on a single index, reduced to which
(phase-row, power, counterfactual-sample) it addresses.  `none` models a
raised assertion (dataset not preprocessed, or index out of range). -/
def Dataset_getitem (d : DatasetModel) (idx : Nat) : Option (Nat × Nat × Nat) :=
  if d.preprocessed = false then none
  else if Dataset_len d ≤ idx then none
  else
    let sample_idx := idx % d.n_cf_agent_samples
    let row := idx / d.n_cf_agent_samples
    match d.x_idxs[row]?, d.power_idxs[row]? with
    | some x, some p => some (x, p, sample_idx)
    | _, _ => none

/-- Prefix-sum pairing used by `from_merge`'s `np.cumsum` offsets. -/
def withOffsets (f : DatasetModel → Nat) : Nat → List DatasetModel → List (DatasetModel × Nat)
  | _, [] => []
  | acc, d :: rest => (d, acc) :: withOffsets f (acc + f d) rest

/-- `Dataset.from_merge`: refuse (`NotImplementedError`, modelled as
`none`) whenever any shard has a counterfactual sample count other than 1
or is not preprocessed; otherwise rebase game/phase row offsets and
concatenate.  The merged dataset takes the constructor's default
`n_cf_agent_samples = 1` and is marked preprocessed. -/
def Dataset_from_merge (datasets : List DatasetModel) : Option DatasetModel :=
  if datasets.any (fun d => d.n_cf_agent_samples ≠ 1 || d.preprocessed = false) then none
  else
    some
      { game_idxs := (withOffsets (·.num_games) 0 datasets).flatMap
          (fun p => p.1.game_idxs.map (· + p.2))
        phase_idxs := datasets.flatMap (·.phase_idxs)
        power_idxs := datasets.flatMap (·.power_idxs)
        x_idxs := (withOffsets (·.num_phases) 0 datasets).flatMap
          (fun p => p.1.x_idxs.map (· + p.2))
        num_games := (datasets.map (·.num_games)).sum
        num_phases := (datasets.map (·.num_phases)).sum
        num_elements := (datasets.map (·.num_elements)).sum
        n_cf_agent_samples := 1
        preprocessed := true }

theorem length_trueIdxs (flags : List Bool) : (trueIdxs flags).length = flags.count true := by
  induction flags with
  | nil => rfl
  | cons b rest ih =>
    cases b <;> simp [trueIdxs, ih, List.count_cons]

theorem length_buildGameRowsAux (game_idx : Nat) :
    ∀ (phases : List (List Bool)) (p0 x0 : Nat),
    (buildGameRowsAux game_idx p0 x0 phases).length =
      (phases.map (fun flags => flags.count true)).sum := by
  intro phases
  induction phases with
  | nil => intro p0 x0; rfl
  | cons flags rest ih =>
    intro p0 x0
    simp [buildGameRowsAux, length_trueIdxs, ih]

theorem length_buildRowsAux :
    ∀ (games : List (List (List Bool))) (g0 x0 : Nat),
    (buildRowsAux g0 x0 games).length =
      (games.map (fun phases => (phases.map (fun flags => flags.count true)).sum)).sum := by
  intro games
  induction games with
  | nil => intro g0 x0; rfl
  | cons phases rest ih =>
    intro g0 x0
    simp [buildRowsAux, length_buildGameRowsAux, ih]

/-- C3: the length of a preprocessed dataset is the number of valid
(game, phase, power) triples times the counterfactual sample count; index
`i < len` resolves the triple at row `i / n_cf_agent_samples` with sample
`i % n_cf_agent_samples`; an out-of-range index is rejected by a raised
assertion (`none`), never silently coerced. -/
theorem Dataset_index_arithmetic (games : List (List (List Bool))) (n_cf : Nat) (i : Nat) :
    (Dataset_len (Dataset_preprocess games n_cf) =
      ((games.filter (fun g => (g.headD []).any (fun b => b))).map
        (fun phases => (phases.map (fun flags => flags.count true)).sum)).sum * n_cf) ∧
    (i < Dataset_len (Dataset_preprocess games n_cf) →
      Dataset_getitem (Dataset_preprocess games n_cf) i =
        some ((Dataset_preprocess games n_cf).x_idxs.getD (i / n_cf) 0,
              (Dataset_preprocess games n_cf).power_idxs.getD (i / n_cf) 0,
              i % n_cf)) ∧
    (Dataset_len (Dataset_preprocess games n_cf) ≤ i →
      Dataset_getitem (Dataset_preprocess games n_cf) i = none) := by
  refine ⟨?_, ?_, ?_⟩
  · simp [Dataset_len, Dataset_preprocess, buildRows, length_buildRowsAux]
  · intro hi
    have hn : 0 < n_cf := by
      rcases Nat.eq_zero_or_pos n_cf with rfl | h
      · simp [Dataset_len, Dataset_preprocess] at hi
      · exact h
    have hrow : i / n_cf < (Dataset_preprocess games n_cf).num_elements := by
      apply Nat.div_lt_of_lt_mul
      have hcf : (Dataset_preprocess games n_cf).n_cf_agent_samples = n_cf := rfl
      rw [Nat.mul_comm]
      simpa [Dataset_len, hcf] using hi
    have hxlen : (Dataset_preprocess games n_cf).x_idxs.length =
        (Dataset_preprocess games n_cf).num_elements := by
      simp [Dataset_preprocess]
    have hplen : (Dataset_preprocess games n_cf).power_idxs.length =
        (Dataset_preprocess games n_cf).num_elements := by
      simp [Dataset_preprocess]
    have h1 : i / n_cf < (Dataset_preprocess games n_cf).x_idxs.length := by omega
    have h2 : i / n_cf < (Dataset_preprocess games n_cf).power_idxs.length := by omega
    unfold Dataset_getitem
    rw [if_neg (by simp [Dataset_preprocess]), if_neg (by omega)]
    dsimp only
    rw [show (Dataset_preprocess games n_cf).n_cf_agent_samples = n_cf from rfl]
    rw [List.getElem?_eq_getElem h1, List.getElem?_eq_getElem h2]
    rw [List.getD_eq_getElem _ _ h1, List.getD_eq_getElem _ _ h2]
  · intro hi
    unfold Dataset_getitem
    rw [if_neg (by simp [Dataset_preprocess]), if_pos hi]

/-- Concrete instance of C3: two games (the second dropped for having no
valid power in its opening phase), two counterfactual samples; index 3
addresses row 1, sample 1. -/
theorem Dataset_index_arithmetic_witness :
    (3 : Nat) < Dataset_len (Dataset_preprocess
      [[[true, false], [false, true]], [[false, false]]] 2) ∧
    Dataset_getitem (Dataset_preprocess
      [[[true, false], [false, true]], [[false, false]]] 2) 3 =
      some ((Dataset_preprocess
              [[[true, false], [false, true]], [[false, false]]] 2).x_idxs.getD (3 / 2) 0,
            (Dataset_preprocess
              [[[true, false], [false, true]], [[false, false]]] 2).power_idxs.getD (3 / 2) 0,
            3 % 2) :=
  ⟨by decide,
    (Dataset_index_arithmetic [[[true, false], [false, true]], [[false, false]]] 2 3).2.1
      (by decide)⟩

/-- C5: `from_merge` raises whenever any input has a counterfactual sample
count other than 1 or is not preprocessed; when all inputs are
single-sample and preprocessed, the merged dataset's length is the sum of
the inputs' lengths. -/
theorem Dataset_from_merge_spec (datasets : List DatasetModel) :
    ((∃ d ∈ datasets, d.n_cf_agent_samples ≠ 1 ∨ d.preprocessed = false) →
      Dataset_from_merge datasets = none) ∧
    ((∀ d ∈ datasets, d.n_cf_agent_samples = 1 ∧ d.preprocessed = true) →
      ∃ m, Dataset_from_merge datasets = some m ∧
        Dataset_len m = (datasets.map Dataset_len).sum) := by
  constructor
  · rintro ⟨d, hd, hbad⟩
    unfold Dataset_from_merge
    rw [if_pos]
    rw [List.any_eq_true]
    refine ⟨d, hd, ?_⟩
    rcases hbad with h | h
    · simp [h]
    · simp [h]
  · intro hall
    have hcond : (datasets.any
        (fun d => d.n_cf_agent_samples ≠ 1 || d.preprocessed = false)) = false := by
      rw [List.any_eq_false]
      intro d hd
      simp [(hall d hd).1, (hall d hd).2]
    unfold Dataset_from_merge
    rw [hcond]
    simp only [Bool.false_eq_true, if_false]
    refine ⟨_, rfl, ?_⟩
    simp only [Dataset_len]
    rw [mul_one]
    congr 1
    apply List.map_congr_left
    intro d hd
    simp [Dataset_len, (hall d hd).1]

/-- Concrete instance of C5: merging two single-sample preprocessed shards
of lengths 2 and 1 yields length 3. -/
theorem Dataset_from_merge_spec_witness :
    ∃ m, Dataset_from_merge
        [⟨[0, 0], [0, 1], [0, 3], [0, 1], 1, 2, 2, 1, true⟩,
         ⟨[0], [0], [2], [0], 1, 1, 1, 1, true⟩] = some m ∧
      Dataset_len m = ([⟨[0, 0], [0, 1], [0, 3], [0, 1], 1, 2, 2, 1, true⟩,
         ⟨[0], [0], [2], [0], 1, 1, 1, 1, true⟩].map Dataset_len).sum :=
  (Dataset_from_merge_spec
      [⟨[0, 0], [0, 1], [0, 3], [0, 1], 1, 2, 2, 1, true⟩,
       ⟨[0], [0], [2], [0], 1, 1, 1, 1, true⟩]).2
    (by decide)

/-- Python `str.endswith`. -/
def pyEndsWith (s suffix : String) : Bool :=
  suffix.data.isSuffixOf s.data

/-- The per-power body of the `encode_phase` action loop: no order samples
means an invalid power with an `N × MAX_SEQ_LEN` all-sentinel label block;
otherwise every sample is encoded (an uncaught exception propagates,
`none`), the `exclude_n_holds` rule may clear a sample's validity, and the
power's bit is the conjunction of its prior bit with every sample's
validity. -/
def encodePhasePower (vocab LOCS : List String) (xp : List (List Int))
    (samples : List (List String)) (valid0 : Bool) (exclude : Int) (N : Nat) :
    Option (List (List Int) × Bool) :=
  if samples.isEmpty then
    some (List.replicate N (List.replicate MAX_SEQ_LEN EOS_IDX), false)
  else
    match tryMap (fun orders =>
        (encode_power_actions vocab LOCS orders xp).map (fun ev =>
          (ev.1,
            if 0 ≤ exclude ∧ exclude ≤ (orders.length : Int) ∧
                orders.all (fun o => pyEndsWith o " H") then false
            else ev.2))) samples with
    | none => none
    | some encs => some (encs.map (·.1), valid0 && encs.all (·.2))

/-- The `for power_i, power in enumerate(POWERS)` loop of `encode_phase`,
walking the three per-power columns together. -/
def encodePhaseLoop (vocab LOCS : List String) (exclude : Int) (N : Nat) :
    List (List (List Int)) → List (List (List String)) → List Bool →
    Option (List (List (List Int)) × List Bool)
  | [], [], [] => some ([], [])
  | xp :: xps, samples :: sampless, v :: vs =>
    match encodePhasePower vocab LOCS xp samples v exclude N,
          encodePhaseLoop vocab LOCS exclude N xps sampless vs with
    | some yv, some rest => some (yv.1 :: rest.1, yv.2 :: rest.2)
    | _, _ => none
  | _, _, _ => none

/-- The action/validity part of `encode_phase`: run the per-power loop,
then clear the bit of every power with an all-sentinel label row
(`(y_actions != EOS_IDX).any(dim=2).all(dim=1)`), then apply the
`only_with_min_final_score` filter.  The board-state encoding
(`FeatureEncoder`, outside `src/`) carries no validity information and is
omitted. -/
def encode_phase_actions (vocab LOCS : List String)
    (xpa : List (List (List Int))) (power_orders_samples : List (List (List String)))
    (input_valid : List Bool) (exclude : Int) (N : Nat)
    (only_min : Option Nat) (centers : List Nat) :
    Option (List (List (List Int)) × List Bool) :=
  match encodePhaseLoop vocab LOCS exclude N xpa power_orders_samples input_valid with
  | none => none
  | some yv =>
    let vals2 := List.zipWith
      (fun (v : Bool) (y : List (List Int)) =>
        v && y.all (fun row => row.any (fun e => !(e == EOS_IDX)))) yv.2 yv.1
    let vals3 :=
      match only_min with
      | none => vals2
      | some m =>
        if m ≤ centers.foldr max 0 then
          List.zipWith (fun v c => if c < m then false else v) vals2 centers
        else vals2
    some (yv.1, vals3)

theorem tryMap_length {α β : Type} {f : α → Option β} :
    ∀ {l : List α} {bs : List β}, tryMap f l = some bs → bs.length = l.length := by
  intro l
  induction l with
  | nil =>
    intro bs h
    simp only [tryMap, Option.some.injEq] at h
    subst h
    rfl
  | cons a rest ih =>
    intro bs h
    rw [tryMap] at h
    cases hfa : f a with
    | none => rw [hfa] at h; exact absurd h (by simp)
    | some b =>
      rw [hfa] at h
      cases htm : tryMap f rest with
      | none => rw [htm] at h; exact absurd h (by simp)
      | some bs' =>
        rw [htm] at h
        simp only [Option.some.injEq] at h
        subst h
        simp [ih htm]

theorem encodePhasePower_length (vocab LOCS : List String) (xp : List (List Int))
    (samples : List (List String)) (valid0 : Bool) (exclude : Int) (N : Nat)
    (y : List (List Int)) (val : Bool)
    (h : encodePhasePower vocab LOCS xp samples valid0 exclude N = some (y, val)) :
    y.length = if samples.isEmpty then N else samples.length := by
  unfold encodePhasePower at h
  by_cases hs : samples.isEmpty
  · rw [if_pos hs] at h
    simp only [Option.some.injEq, Prod.mk.injEq] at h
    rw [if_pos hs, ← h.1]
    simp
  · rw [if_neg hs] at h
    cases htm : tryMap (fun orders =>
        (encode_power_actions vocab LOCS orders xp).map (fun ev =>
          (ev.1,
            if 0 ≤ exclude ∧ exclude ≤ (orders.length : Int) ∧
                orders.all (fun o => pyEndsWith o " H") then false
            else ev.2))) samples with
    | none => rw [htm] at h; exact absurd h (by simp)
    | some encs =>
      rw [htm] at h
      simp only [Option.some.injEq, Prod.mk.injEq] at h
      rw [if_neg hs, ← h.1]
      simp [tryMap_length htm]

theorem encodePhaseLoop_length (vocab LOCS : List String) (exclude : Int) (N : Nat) :
    ∀ (xps : List (List (List Int))) (sampless : List (List (List String)))
      (vs : List Bool) (ys : List (List (List Int))) (vals : List Bool),
    encodePhaseLoop vocab LOCS exclude N xps sampless vs = some (ys, vals) →
    ys.length = xps.length ∧ vals.length = xps.length ∧
    (∀ p, p < ys.length →
      (ys.getD p []).length =
        if (sampless.getD p []).isEmpty then N else (sampless.getD p []).length) := by
  intro xps
  induction xps with
  | nil =>
    intro sampless vs ys vals h
    cases sampless with
    | cons s ss => simp [encodePhaseLoop] at h
    | nil =>
      cases vs with
      | cons v vv => simp [encodePhaseLoop] at h
      | nil =>
        simp only [encodePhaseLoop, Option.some.injEq, Prod.mk.injEq] at h
        obtain ⟨h1, h2⟩ := h
        subst h1; subst h2
        exact ⟨rfl, rfl, fun p hp => absurd hp (Nat.not_lt_zero p)⟩
  | cons xp xps ih =>
    intro sampless vs ys vals h
    cases sampless with
    | nil => simp [encodePhaseLoop] at h
    | cons samples sampless =>
      cases vs with
      | nil => simp [encodePhaseLoop] at h
      | cons v vs =>
        rw [encodePhaseLoop] at h
        cases hp : encodePhasePower vocab LOCS xp samples v exclude N with
        | none => rw [hp] at h; exact absurd h (by simp)
        | some yv =>
          cases hl : encodePhaseLoop vocab LOCS exclude N xps sampless vs with
          | none => rw [hp, hl] at h; exact absurd h (by simp)
          | some rest =>
            rw [hp, hl] at h
            simp only [Option.some.injEq, Prod.mk.injEq] at h
            obtain ⟨h1, h2⟩ := h
            subst h1; subst h2
            obtain ⟨ihy, ihv, ihp⟩ := ih sampless vs rest.1 rest.2 (by rw [hl])
            refine ⟨by simp [ihy], by simp [ihv], ?_⟩
            intro p hp2
            cases p with
            | zero =>
              simp only [List.getD_cons_zero]
              exact encodePhasePower_length vocab LOCS xp samples v exclude N
                yv.1 yv.2 (by rw [hp])
            | succ k =>
              simp only [List.getD_cons_succ]
              exact ihp k (by simpa using hp2)

theorem mem_trueIdxs : ∀ (flags : List Bool) (p : Nat),
    p ∈ trueIdxs flags → flags.getD p false = true := by
  intro flags
  induction flags with
  | nil => intro p hp; simp [trueIdxs] at hp
  | cons b rest ih =>
    intro p hp
    rw [trueIdxs] at hp
    rcases List.mem_append.mp hp with h | h
    · cases b with
      | true =>
        simp only [if_true, List.mem_singleton] at h
        subst h
        rfl
      | false => simp at h
    · obtain ⟨q, hq, rfl⟩ := List.mem_map.mp h
      simpa [List.getD_cons_succ] using ih q hq

theorem mem_buildGameRowsAux (game_idx : Nat) :
    ∀ (phases : List (List Bool)) (p0 x0 : Nat) (r : Nat × Nat × Nat × Nat),
    r ∈ buildGameRowsAux game_idx p0 x0 phases →
    r.1 = game_idx ∧
    ∃ k, k < phases.length ∧ r.2.1 = p0 + k ∧
      ((phases.getD k []).getD r.2.2.1 false) = true := by
  intro phases
  induction phases with
  | nil => intro p0 x0 r hr; simp [buildGameRowsAux] at hr
  | cons flags rest ih =>
    intro p0 x0 r hr
    rw [buildGameRowsAux] at hr
    rcases List.mem_append.mp hr with h | h
    · obtain ⟨p, hp, rfl⟩ := List.mem_map.mp h
      exact ⟨rfl, 0, by simp, by simp, by simpa using mem_trueIdxs flags p hp⟩
    · obtain ⟨hg, k, hk, hpk, hflag⟩ := ih (p0 + 1) (x0 + 1) r h
      refine ⟨hg, k + 1, by simpa using hk, by omega, by simpa using hflag⟩

theorem mem_buildRowsAux_flag :
    ∀ (games : List (List (List Bool))) (g0 x0 : Nat) (r : Nat × Nat × Nat × Nat),
    r ∈ buildRowsAux g0 x0 games →
    ∃ gi, gi < games.length ∧ r.1 = g0 + gi ∧
      (((games.getD gi []).getD r.2.1 []).getD r.2.2.1 false) = true := by
  intro games
  induction games with
  | nil => intro g0 x0 r hr; simp [buildRowsAux] at hr
  | cons phases rest ih =>
    intro g0 x0 r hr
    rw [buildRowsAux] at hr
    rcases List.mem_append.mp hr with h | h
    · obtain ⟨hg, k, hk, hpk, hflag⟩ := mem_buildGameRowsAux g0 phases 0 x0 r h
      refine ⟨0, by simp, by simpa using hg, ?_⟩
      simp only [List.getD_cons_zero]
      rw [hpk]
      simpa using hflag
    · obtain ⟨gi, hgi, hg, hflag⟩ := ih (g0 + 1) (x0 + phases.length) r h
      exact ⟨gi + 1, by simpa using hgi, by omega, by simpa using hflag⟩

set_option maxRecDepth 100000 in
/-- C8 fails as stated: here is a phase encoding in which player slot 0 is
invalid (its mask bit is cleared because its second order is absent from
its step's candidates), yet its label block is NOT all-sentinel — the
first label entry is the real candidate position `0`, not `EOS_IDX`.
Invalid samples keep whatever was written before the failure, not
zero/sentinel content. -/
theorem encode_phase_invalid_not_sentinel_counterexample :
    (encode_phase_actions ["A VIE H", "A BUD H"] ["VIE", "BUD"]
        ((empty_order_idxs.set 0
            (writeRow (List.replicate MAX_VALID_LEN EOS_IDX) [0])) ::
          List.replicate 6 empty_order_idxs)
        ([[["A VIE H", "A BUD H"]]] ++ List.replicate 6 ([] : List (List String)))
        (List.replicate 7 true) (-1) 1 none []).map
      (fun out => (out.2.getD 0 true,
        ((out.1.getD 0 []).getD 0 []).getD 0 EOS_IDX == EOS_IDX)) =
      some (false, false) := by
  decide

/-- C8 (amended): invalid (turn, player) samples keep their structural
slot — the label tensor always holds all player slots, each with its full
complement of sample rows — and are excluded only through the validity
mask, which the index build consults so that only mask-true triples become
addressable rows; nothing is deleted.  (The claim's parenthetical that an
invalid player's label entries are all zero/sentinel is dropped: a sample
invalidated mid-encoding keeps its partially written labels, see the
counterexample.) -/
theorem encode_phase_structural_mask (vocab LOCS : List String)
    (xpa : List (List (List Int))) (samples : List (List (List String)))
    (input_valid : List Bool) (exclude : Int) (N : Nat)
    (only_min : Option Nat) (centers : List Nat)
    (h7x : xpa.length = 7) (h7c : centers.length = 7) :
    (∀ ys vals,
      encode_phase_actions vocab LOCS xpa samples input_valid exclude N only_min
        centers = some (ys, vals) →
      ys.length = 7 ∧ vals.length = 7 ∧
      (∀ p, p < 7 →
        (ys.getD p []).length =
          if (samples.getD p []).isEmpty then N else (samples.getD p []).length)) ∧
    (∀ (games : List (List (List Bool))) (r : Nat × Nat × Nat × Nat),
      r ∈ buildRows games →
      (((games.getD r.1 []).getD r.2.1 []).getD r.2.2.1 false) = true) := by
  constructor
  · intro ys vals h
    unfold encode_phase_actions at h
    cases hl : encodePhaseLoop vocab LOCS exclude N xpa samples input_valid with
    | none => rw [hl] at h; exact absurd h (by simp)
    | some yv =>
      rw [hl] at h
      simp only [Option.some.injEq, Prod.mk.injEq] at h
      obtain ⟨hys, hvals⟩ := h
      obtain ⟨hy1, hv1, hp1⟩ := encodePhaseLoop_length vocab LOCS exclude N
        xpa samples input_valid yv.1 yv.2 (by rw [hl])
      have hyslen : ys.length = 7 := by rw [← hys, hy1, h7x]
      refine ⟨hyslen, ?_, ?_⟩
      · rw [← hvals]
        have hvals2 : (List.zipWith
            (fun (v : Bool) (y : List (List Int)) =>
              v && y.all (fun row => row.any (fun e => !(e == EOS_IDX)))) yv.2 yv.1).length
            = 7 := by
          rw [List.length_zipWith, hy1, hv1, h7x]
          omega
        cases only_min with
        | none => simpa using hvals2
        | some m =>
          by_cases hm : m ≤ centers.foldr max 0
          · simp only [hm, if_true]
            rw [List.length_zipWith, hvals2, h7c]
            simp
          · simp only [hm, if_false]
            exact hvals2
      · intro p hp
        rw [← hys]
        exact hp1 p (by omega)
  · intro games r hr
    obtain ⟨gi, hgi, hg, hflag⟩ := mem_buildRowsAux_flag games 0 0 r hr
    rw [hg]
    simpa using hflag

/-- Concrete instance of the amended C8: the index row `(0, 0, 0, 0)`
built from a one-game, one-phase, one-power dataset points at a set
validity bit. -/
theorem encode_phase_structural_mask_witness :
    ((0, 0, 0, 0) : Nat × Nat × Nat × Nat) ∈ buildRows [[[true]]] ∧
    ((([[[true]]] : List (List (List Bool))).getD 0 []).getD 0 []).getD 0 false = true :=
  ⟨by decide,
    (encode_phase_structural_mask [] [] (List.replicate 7 []) (List.replicate 7 [])
        (List.replicate 7 true) (-1) 1 none (List.replicate 7 0)
        (by decide) (by decide)).2
      [[[true]]] (0, 0, 0, 0) (by decide)⟩
